import Mathlib

/-!
Verification of the AMR extractor (frame-table construction and seek-indexing
engine) of `media/libstagefright`.  The repository ships only the header
`AMRExtractor.h`; the implementation file is absent, so the walking, index
building, seeking and sniffing logic is modelled from the specification.
The `AMRFrameTableEntry` structure and its constructor are taken directly
from the header.
-/

namespace AMR

/-- Modelled from the spec: the codec variant, fixed at open time from the
container's magic header (missing implementation `AMRExtractor.cpp`). -/
inductive Variant
| narrowband
| wideband
deriving DecidableEq

/-- Modelled from the spec: the 6-byte narrowband magic literal `#!AMR\n`. -/
def amrNBMagic : List Nat := [35, 33, 65, 77, 82, 10]

/-- Modelled from the spec: the 9-byte wideband magic literal `#!AMR-WB\n`. -/
def amrWBMagic : List Nat := [35, 33, 65, 77, 82, 45, 87, 66, 10]

/-- Modelled from the spec: length of the fixed-size magic header per variant. -/
def headerLength : Variant → Nat
| .narrowband => 6
| .wideband => 9

/-- Modelled from the spec: AMR frames are a fixed 20 ms of audio, so every
frame is accounted 20000 microseconds for indexing purposes. -/
def frameDurationUs : Nat := 20000

/-- Modelled from the spec: the frame-type code is bits 6..3 of the frame's
first byte. -/
def frameTypeCode (b : Nat) : Nat := b / 8 % 16

/-- Modelled from the spec: the `FrameSizeTable` contract — a pure lookup
from (variant, frame-type code) to the frame byte-size; `none` models the
`InvalidCode` classification of reserved/unsupported codes.  The concrete
numeric sizes live in the missing implementation, so the table is a
parameter of the model. -/
def SizeTable := Variant → Nat → Option Nat

/-- Modelled from the spec: the result of reading one frame with the
`FrameWalker` (missing implementation). -/
inductive WalkResult
| frame (sizeBytes : Nat) (newOffset : Nat)
| endOfStream
| corruptFrame (offset : Nat)
| truncatedFrame
deriving DecidableEq

/-- Modelled from the spec: `FrameWalker.nextFrame` — read one header byte at
`offset`; fewer than 1 byte remaining is `endOfStream`; an invalid code is
`corruptFrame`; a valid header whose declared size exceeds the remaining
bytes is `truncatedFrame`; otherwise report the size and the offset of the
next frame header. -/
def nextFrame (tbl : Nat → Option Nat) (src : List Nat) (offset : Nat) : WalkResult :=
if offset < src.length then
  match tbl (frameTypeCode (src.getD offset 0)) with
  | none => .corruptFrame offset
  | some size =>
      if offset + size ≤ src.length then .frame size (offset + size)
      else .truncatedFrame
else .endOfStream

/-- Modelled from the spec: drive the `FrameWalker` from an offset to
end-of-stream or first unrecoverable error, collecting the sizes of the
valid frames read (the valid prefix; trailing corruption truncates).  Fuel
bounds the recursion; `src.length` steps always suffice because every legal
frame size includes the 1-byte header and so is positive. -/
def walkFrames (tbl : Nat → Option Nat) (src : List Nat) : Nat → Nat → List Nat
| _, 0 => []
| offset, fuel + 1 =>
    match nextFrame tbl src offset with
    | .frame size newOffset => size :: walkFrames tbl src newOffset fuel
    | _ => []

/-- Modelled from the spec: a `RunEntry` of the run-length frame index — a
maximal contiguous run of frames sharing the same size and duration. -/
structure RunEntry where
  frameCount : Nat
  frameSizeBytes : Nat
  frameDurationUs : Nat
deriving DecidableEq

/-- Modelled from the spec: the `FrameIndexBuilder` loop — maintain an open
run; a frame matching the open run's (size, duration) increments its count,
otherwise the open run is closed (appended) and a new one starts; at the
end the final open run is closed. -/
def buildRuns : Option RunEntry → List Nat → List RunEntry
| none, [] => []
| some r, [] => [r]
| none, s :: rest => buildRuns (some ⟨1, s, frameDurationUs⟩) rest
| some r, s :: rest =>
    if r.frameSizeBytes = s ∧ r.frameDurationUs = frameDurationUs then
      buildRuns (some ⟨r.frameCount + 1, s, frameDurationUs⟩) rest
    else
      r :: buildRuns (some ⟨1, s, frameDurationUs⟩) rest

/-- Modelled from the spec: the frame index built from the walked frame
sizes, starting with no open run. -/
def buildIndex (sizes : List Nat) : List RunEntry :=
buildRuns none sizes

/-- Modelled from the spec: `totalFrames` is the sum of the counts of the
index entries. -/
def sumCounts (runs : List RunEntry) : Nat :=
(runs.map RunEntry.frameCount).sum

/-- Modelled from the spec: `totalDurationUs` is the sum of count×duration
over the index entries. -/
def sumDuration (runs : List RunEntry) : Nat :=
(runs.map (fun r => r.frameCount * r.frameDurationUs)).sum

/-- Number of maximal contiguous blocks of equal values in a list: the `k`
of the coalescing-correctness property. -/
def blockCount : List Nat → Nat
| [] => 0
| [_] => 1
| a :: b :: rest => (if a = b then 0 else 1) + blockCount (b :: rest)

/-- Modelled from the spec: magic-header check — narrowband iff the first 6
bytes are `#!AMR\n`, wideband iff the first 9 bytes are `#!AMR-WB\n`. -/
def chkMagic (src : List Nat) : Option Variant :=
if src.take 6 = amrNBMagic then some .narrowband
else if src.take 9 = amrWBMagic then some .wideband
else none

/-- Modelled from the spec: the sizes of the valid frames of the stream,
walked from immediately after the magic header. -/
def frameSizesOf (tbl : SizeTable) (src : List Nat) : List Nat :=
match chkMagic src with
| some v => walkFrames (tbl v) src (headerLength v) src.length
| none => []

/-- Modelled from the spec: fatal open errors — `badMagic` when neither
literal matches, `emptyStream` when the magic matched but zero valid frames
follow. -/
inductive OpenError
| badMagic
| emptyStream
deriving DecidableEq

/-- Modelled from the spec: the immutable state of a successfully opened
extractor — variant, run-length frame index, and the derived totals. -/
structure Extractor where
  variant : Variant
  index : List RunEntry
  totalFrames : Nat
  totalDurationUs : Nat
deriving DecidableEq

/-- Modelled from the spec: open/initialization — check the magic, walk the
frames, fail with `emptyStream` if zero valid frames were read, otherwise
build the index once and derive the totals. -/
def openExtractor (tbl : SizeTable) (src : List Nat) : Except OpenError Extractor :=
match chkMagic src with
| none => .error .badMagic
| some v =>
    match walkFrames (tbl v) src (headerLength v) src.length with
    | [] => .error .emptyStream
    | s :: rest =>
        let idx := buildIndex (s :: rest)
        .ok ⟨v, idx, sumCounts idx, sumDuration idx⟩

/-- Modelled from the spec: the track metadata record exposed to playback
collaborators. -/
structure TrackMetadata where
  mimeType : String
  sampleRate : Nat
  channelCount : Nat
  durationUs : Nat
  isConstantFrameRate : Bool
deriving DecidableEq

/-- Modelled from the spec: `trackMetadata()` — MIME type and sample rate
from the variant, always one channel, total duration, and the frame-rate
constancy flag (exactly one RunEntry whose duration is the fixed 20 ms). -/
def trackMetadata (e : Extractor) : TrackMetadata :=
{ mimeType := match e.variant with
    | .narrowband => "audio/amr"
    | .wideband => "audio/amr-wb"
  sampleRate := match e.variant with
    | .narrowband => 8000
    | .wideband => 16000
  channelCount := 1
  durationUs := e.totalDurationUs
  isConstantFrameRate :=
    decide (e.index.length = 1 ∧ ∀ r ∈ e.index, r.frameDurationUs = frameDurationUs) }

/-- Modelled from the spec: `SniffAMR` — inspect only the first 9 bytes and
report the MIME type if either magic literal is found at offset 0, `none`
for no match. -/
def SniffAMR (src : List Nat) : Option String :=
if (src.take 9).take 6 = amrNBMagic then some "audio/amr"
else if src.take 9 = amrWBMagic then some "audio/amr-wb"
else none

/-- Modelled from the spec: the answer of `SeekIndex.frameAtTime`. -/
structure FramePos where
  frameNumber : Nat
  byteOffset : Nat
  frameDurationUs : Nat
deriving DecidableEq

/-- Modelled from the spec: the `SeekIndex` traversal — walk the run
entries accumulating duration, frame count and byte size until the run
containing the target time is found; the frame within that run is the
integer division of the remaining time by the run's per-frame duration. -/
def locate : List RunEntry → Nat → Nat → Nat → Option FramePos
| [], _, _, _ => none
| r :: rs, t, fAcc, bAcc =>
    if t < r.frameCount * r.frameDurationUs then
      some ⟨fAcc + t / r.frameDurationUs,
            bAcc + t / r.frameDurationUs * r.frameSizeBytes,
            r.frameDurationUs⟩
    else
      locate rs (t - r.frameCount * r.frameDurationUs)
        (fAcc + r.frameCount) (bAcc + r.frameCount * r.frameSizeBytes)

/-- Modelled from the spec: `frameAtTime` — clamp the target to
`[0, totalDurationUs)` (negative targets clamp to 0) and locate the run
containing it, byte offsets counted from the end of the magic header. -/
def frameAtTime (e : Extractor) (targetUs : Int) : Option FramePos :=
locate e.index (min targetUs.toNat (e.totalDurationUs - 1)) 0 (headerLength e.variant)

/-- Modelled from the spec: `offsetAtFrame` — the same traversal keyed by
frame count, `none` for a frame number beyond the index (`OutOfRange`). -/
def offsetAtFrame : List RunEntry → Nat → Nat → Option Nat
| [], _, _ => none
| r :: rs, f, bAcc =>
    if f < r.frameCount then some (bAcc + f * r.frameSizeBytes)
    else offsetAtFrame rs (f - r.frameCount) (bAcc + r.frameCount * r.frameSizeBytes)

/-- Modelled from the spec: size of the frame at a given frame number, read
from the run entry covering it. -/
def runSizeAtFrame : List RunEntry → Nat → Option Nat
| [], _ => none
| r :: rs, f =>
    if f < r.frameCount then some r.frameSizeBytes
    else runSizeAtFrame rs (f - r.frameCount)

/-- Modelled from the spec: presentation timestamp of a frame, derived by
the same run traversal accumulating per-frame durations. -/
def timestampAtFrame : List RunEntry → Nat → Nat → Option Nat
| [], _, _ => none
| r :: rs, f, tAcc =>
    if f < r.frameCount then some (tAcc + f * r.frameDurationUs)
    else timestampAtFrame rs (f - r.frameCount) (tAcc + r.frameCount * r.frameDurationUs)

/-- Modelled from the spec: the mutable read cursor of an open extractor. -/
structure Cursor where
  currentFrameNumber : Nat
  currentByteOffset : Nat
deriving DecidableEq

/-- Modelled from the spec: `seekTo` — delegate to the seek index and
overwrite the cursor; clamping inside `frameAtTime` means no error reaches
the caller for an in-range or out-of-range time alike. -/
def seekTo (e : Extractor) (targetUs : Int) : Option Cursor :=
(frameAtTime e targetUs).map fun p => ⟨p.frameNumber, p.byteOffset⟩

/-- Modelled from the spec: result of `readNextFrame` — a raw payload with
its presentation timestamp, or `endOfTrack` past the last indexed frame. -/
inductive ReadResult
| frame (payload : List Nat) (timestampUs : Nat)
| endOfTrack
deriving DecidableEq

/-- Modelled from the spec: `readNextFrame` — read the frame covering the
cursor's frame number at the cursor's byte offset, advance the cursor, and
return the payload with its timestamp; `endOfTrack` past the last frame. -/
def readNextFrame (src : List Nat) (e : Extractor) (c : Cursor) : ReadResult × Cursor :=
match runSizeAtFrame e.index c.currentFrameNumber,
      timestampAtFrame e.index c.currentFrameNumber 0 with
| some size, some ts =>
    (.frame ((src.drop c.currentByteOffset).take size) ts,
     ⟨c.currentFrameNumber + 1, c.currentByteOffset + size⟩)
| _, _ => (.endOfTrack, c)

/-- Modelled from the spec: the operations a caller can perform on an
extractor instance after open. -/
inductive Op
| countTracksOp
| trackMetadataOp
| readNextFrameOp
| seekToOp (t : Int)

/-- Modelled from the spec: responses of the extractor façade; every
operation on a failed instance reports `notInitialized`. -/
inductive Resp
| tracks (n : Nat)
| metadata (m : TrackMetadata)
| readResult (r : ReadResult)
| seekOk
| notInitialized
deriving DecidableEq

/-- Modelled from the spec: the per-instance state machine — `ready` with
an extractor and its cursor, or the terminal `failed` state. -/
inductive ExtState
| ready (e : Extractor) (c : Cursor)
| failed
deriving DecidableEq

/-- Modelled from the spec: one operation step of the state machine; in
`failed` every operation reports `notInitialized` and the state is
unchanged; from `ready` reads advance the cursor and seeks overwrite it. -/
def stepOp (src : List Nat) (s : ExtState) (op : Op) : ExtState × Resp :=
match s with
| .failed => (.failed, .notInitialized)
| .ready e c =>
    match op with
    | .countTracksOp => (.ready e c, .tracks 1)
    | .trackMetadataOp => (.ready e c, .metadata (trackMetadata e))
    | .readNextFrameOp =>
        let rc := readNextFrame src e c
        (.ready e rc.2, .readResult rc.1)
    | .seekToOp t =>
        match seekTo e t with
        | some c2 => (.ready e c2, .seekOk)
        | none => (.ready e c, .seekOk)

/-- Modelled from the spec: run a sequence of operations, collecting the
responses. -/
def runOps (src : List Nat) : ExtState → List Op → ExtState × List Resp
| s, [] => (s, [])
| s, op :: ops =>
    let sr := stepOp src s op
    let tail := runOps src sr.1 ops
    (tail.1, sr.2 :: tail.2)

/-- Modelled from the spec: the state an instance is in after open — `ready`
with the cursor at frame 0 on success, the terminal `failed` on failure. -/
def openState (tbl : SizeTable) (src : List Nat) : ExtState :=
match openExtractor tbl src with
| .ok e => .ready e ⟨0, headerLength e.variant⟩
| .error _ => .failed

/-- Number of values of a 32-bit unsigned integer. -/
def UINT32_SIZE : Nat := 2 ^ 32

/-- From `AMRExtractor.h` lines 26-36: the run-table entry, with a 64-bit
frame count and 32-bit size and rate fields. -/
structure AMRFrameTableEntry where
  mNumFrames : Nat
  mFrameSize : Nat
  mFrameRate : Nat
deriving DecidableEq

/-- From `AMRExtractor.h` lines 28-31: the only constructor takes the frame
count as `uint32_t` and widens it into the `uint64_t` field. -/
def AMRFrameTableEntry.ctor (numframes framesize framerate : Fin UINT32_SIZE) :
    AMRFrameTableEntry :=
⟨numframes.val, framesize.val, framerate.val⟩

/-- A sample frame-size table for concrete evaluations: code 0 is a 12-byte
frame, code 1 a 6-byte frame, every other code is invalid. -/
def sampleTable : SizeTable := fun _ c =>
if c = 0 then some 12 else if c = 1 then some 6 else none

/-- A narrowband stream with two 12-byte frames (type code 0) followed by one
6-byte frame (type code 1): two maximal blocks of distinct frame sizes. -/
def srcTwoBlocks : List Nat :=
amrNBMagic ++ [0, 0, 0, 0, 0, 0, 0, 0, 0, 0, 0, 0]
  ++ [0, 0, 0, 0, 0, 0, 0, 0, 0, 0, 0, 0] ++ [8, 0, 0, 0, 0, 0]

/-- The extractor state produced by opening `srcTwoBlocks` with
`sampleTable`. -/
def extTwoBlocks : Extractor :=
⟨.narrowband, [⟨2, 12, frameDurationUs⟩, ⟨1, 6, frameDurationUs⟩], 3, 60000⟩

/-- A constant-bitrate narrowband stream of three 12-byte frames. -/
def srcConstBitrate : List Nat :=
amrNBMagic ++ [0, 0, 0, 0, 0, 0, 0, 0, 0, 0, 0, 0]
  ++ [0, 0, 0, 0, 0, 0, 0, 0, 0, 0, 0, 0] ++ [0, 0, 0, 0, 0, 0, 0, 0, 0, 0, 0, 0]

/-- The extractor state produced by opening `srcConstBitrate` with
`sampleTable`. -/
def extConstBitrate : Extractor :=
⟨.narrowband, [⟨3, 12, frameDurationUs⟩], 3, 60000⟩

/-- Two adjacent run entries are distinct: they do not share the same
(frameSizeBytes, frameDurationUs) pair. -/
def distinctAdj (a b : RunEntry) : Prop :=
¬(a.frameSizeBytes = b.frameSizeBytes ∧ a.frameDurationUs = b.frameDurationUs)

theorem buildRuns_length (sizes : List Nat) : ∀ r : RunEntry,
    r.frameDurationUs = frameDurationUs →
    (buildRuns (some r) sizes).length = blockCount (r.frameSizeBytes :: sizes) := by
  induction sizes with
  | nil => intro r _; simp [buildRuns, blockCount]
  | cons s rest ih =>
    intro r hr
    by_cases h : r.frameSizeBytes = s
    · have := ih ⟨r.frameCount + 1, s, frameDurationUs⟩ rfl
      simp [buildRuns, blockCount, h, hr, this]
    · have := ih ⟨1, s, frameDurationUs⟩ rfl
      simp [buildRuns, blockCount, h, this]
      omega

theorem buildRuns_wf (sizes : List Nat) : ∀ r : RunEntry,
    r.frameDurationUs = frameDurationUs → 1 ≤ r.frameCount →
    ∀ x ∈ buildRuns (some r) sizes,
      x.frameDurationUs = frameDurationUs ∧ 1 ≤ x.frameCount := by
  induction sizes with
  | nil => intro r hr hc x hx; simp [buildRuns] at hx; subst hx; exact ⟨hr, hc⟩
  | cons s rest ih =>
    intro r hr hc x hx
    by_cases h : r.frameSizeBytes = s
    · rw [buildRuns, if_pos ⟨h, hr⟩] at hx
      exact ih ⟨r.frameCount + 1, s, frameDurationUs⟩ rfl (Nat.le_add_left 1 r.frameCount) x hx
    · rw [buildRuns, if_neg (by simp [h])] at hx
      rcases List.mem_cons.mp hx with hx | hx
      · subst hx; exact ⟨hr, hc⟩
      · exact ih ⟨1, s, frameDurationUs⟩ rfl (Nat.le_refl 1) x hx

theorem buildRuns_chain (sizes : List Nat) : ∀ r : RunEntry,
    r.frameDurationUs = frameDurationUs →
    ∃ hd tl, buildRuns (some r) sizes = hd :: tl ∧
      hd.frameSizeBytes = r.frameSizeBytes ∧
      hd.frameDurationUs = frameDurationUs ∧
      List.Chain' distinctAdj (hd :: tl) := by
  induction sizes with
  | nil => intro r hr; exact ⟨r, [], by simp [buildRuns], rfl, hr, by simp⟩
  | cons s rest ih =>
    intro r hr
    by_cases h : r.frameSizeBytes = s
    · obtain ⟨hd, tl, heq, hsz, hdur, hch⟩ := ih ⟨r.frameCount + 1, s, frameDurationUs⟩ rfl
      rw [buildRuns, if_pos ⟨h, hr⟩]
      exact ⟨hd, tl, heq, by rw [hsz, h], hdur, hch⟩
    · obtain ⟨hd, tl, heq, hsz, hdur, hch⟩ := ih ⟨1, s, frameDurationUs⟩ rfl
      rw [buildRuns, if_neg (by simp [h]), heq]
      refine ⟨r, hd :: tl, rfl, rfl, hr, ?_⟩
      rw [List.chain'_cons]
      refine ⟨?_, hch⟩
      intro hcontra
      exact h (by rw [hcontra.1, hsz])

theorem buildRuns_replicate (n : Nat) : ∀ c s : Nat,
    buildRuns (some ⟨c, s, frameDurationUs⟩) (List.replicate n s) =
      [⟨c + n, s, frameDurationUs⟩] := by
  induction n with
  | zero => intro c s; simp [buildRuns]
  | succ m ih =>
    intro c s
    rw [List.replicate_succ, buildRuns, if_pos ⟨rfl, rfl⟩, ih]
    simp
    omega

theorem open_ok {tbl : SizeTable} {src : List Nat} {e : Extractor}
    (h : openExtractor tbl src = .ok e) :
    ∃ v s rest, chkMagic src = some v ∧
      walkFrames (tbl v) src (headerLength v) src.length = s :: rest ∧
      e = ⟨v, buildIndex (s :: rest), sumCounts (buildIndex (s :: rest)),
           sumDuration (buildIndex (s :: rest))⟩ := by
  cases hm : chkMagic src with
  | none => simp only [openExtractor, hm] at h; exact absurd h (by simp)
  | some v =>
    cases hw : walkFrames (tbl v) src (headerLength v) src.length with
    | nil => simp only [openExtractor, hm, hw] at h; exact absurd h (by simp)
    | cons s rest =>
      simp only [openExtractor, hm, hw, Except.ok.injEq] at h
      exact ⟨v, s, rest, rfl, hw, h.symm⟩

theorem buildIndex_cons (s : Nat) (rest : List Nat) :
    buildIndex (s :: rest) = buildRuns (some ⟨1, s, frameDurationUs⟩) rest := by
  simp [buildIndex, buildRuns]

theorem buildIndex_wf (s : Nat) (rest : List Nat) :
    ∀ x ∈ buildIndex (s :: rest),
      x.frameDurationUs = frameDurationUs ∧ 1 ≤ x.frameCount := by
  rw [buildIndex_cons]
  exact buildRuns_wf rest ⟨1, s, frameDurationUs⟩ rfl (Nat.le_refl 1)

theorem buildIndex_ne_nil (s : Nat) (rest : List Nat) :
    buildIndex (s :: rest) ≠ [] := by
  rw [buildIndex_cons]
  obtain ⟨hd, tl, heq, -⟩ := buildRuns_chain rest ⟨1, s, frameDurationUs⟩ rfl
  rw [heq]
  simp

theorem sumDuration_eq (runs : List RunEntry)
    (h : ∀ x ∈ runs, x.frameDurationUs = frameDurationUs ∧ 1 ≤ x.frameCount) :
    sumDuration runs = frameDurationUs * sumCounts runs := by
  induction runs with
  | nil => simp [sumDuration, sumCounts]
  | cons r rs ih =>
    have hr := (h r (List.mem_cons_self r rs)).1
    have := ih (fun x hx => h x (List.mem_cons_of_mem r hx))
    simp only [sumDuration, sumCounts, List.map_cons, List.sum_cons] at this ⊢
    rw [hr, this]
    ring

theorem sumCounts_pos (r : RunEntry) (rs : List RunEntry)
    (h : ∀ x ∈ r :: rs, x.frameDurationUs = frameDurationUs ∧ 1 ≤ x.frameCount) :
    1 ≤ sumCounts (r :: rs) := by
  have := (h r (List.mem_cons_self r rs)).2
  simp only [sumCounts, List.map_cons, List.sum_cons]
  omega

theorem lookups_some (runs : List RunEntry)
    (hwf : ∀ x ∈ runs, x.frameDurationUs = frameDurationUs ∧ 1 ≤ x.frameCount) :
    ∀ f bAcc tAcc, f < sumCounts runs →
    (∃ sz, runSizeAtFrame runs f = some sz) ∧
    (∃ off, offsetAtFrame runs f bAcc = some off) ∧
    timestampAtFrame runs f tAcc = some (tAcc + f * frameDurationUs) := by
  induction runs with
  | nil => intro f bAcc tAcc hf; simp [sumCounts] at hf
  | cons r rs ih =>
    intro f bAcc tAcc hf
    obtain ⟨hdur, hcnt⟩ := hwf r (List.mem_cons_self r rs)
    by_cases hfr : f < r.frameCount
    · rw [runSizeAtFrame, if_pos hfr, offsetAtFrame, if_pos hfr,
        timestampAtFrame, if_pos hfr, hdur]
      exact ⟨⟨_, rfl⟩, ⟨_, rfl⟩, rfl⟩
    · have hf' : f - r.frameCount < sumCounts rs := by
        simp only [sumCounts, List.map_cons, List.sum_cons] at hf
        simp only [sumCounts]
        omega
      obtain ⟨hsz, hoff, hts⟩ :=
        ih (fun x hx => hwf x (List.mem_cons_of_mem r hx)) (f - r.frameCount)
          (bAcc + r.frameCount * r.frameSizeBytes)
          (tAcc + r.frameCount * r.frameDurationUs) hf'
      rw [runSizeAtFrame, if_neg hfr, offsetAtFrame, if_neg hfr,
        timestampAtFrame, if_neg hfr]
      refine ⟨hsz, hoff, ?_⟩
      rw [hts, hdur]
      congr 1
      simp only [frameDurationUs]
      omega

theorem locate_eq (runs : List RunEntry) :
    ∀ f t fAcc bAcc off,
    (∀ x ∈ runs, x.frameDurationUs = frameDurationUs ∧ 1 ≤ x.frameCount) →
    f < sumCounts runs →
    f * frameDurationUs ≤ t → t < (f + 1) * frameDurationUs →
    offsetAtFrame runs f bAcc = some off →
    locate runs t fAcc bAcc = some ⟨fAcc + f, off, frameDurationUs⟩ := by
  induction runs with
  | nil => intro f t fAcc bAcc off _ hf; simp [sumCounts] at hf
  | cons r rs ih =>
    intro f t fAcc bAcc off hwf hf hlo hhi hoff
    obtain ⟨hdur, hcnt⟩ := hwf r (List.mem_cons_self r rs)
    by_cases hfr : f < r.frameCount
    · have ht : t < r.frameCount * r.frameDurationUs := by
        rw [hdur]
        calc t < (f + 1) * frameDurationUs := hhi
          _ ≤ r.frameCount * frameDurationUs := Nat.mul_le_mul_right _ hfr
      have hdiv : t / r.frameDurationUs = f := by
        rw [hdur]
        simp only [frameDurationUs] at hlo hhi ⊢
        omega
      rw [offsetAtFrame, if_pos hfr] at hoff
      simp only [Option.some.injEq] at hoff
      rw [locate, if_pos ht, hdiv, hdur, hoff]
    · have hge : r.frameCount * r.frameDurationUs ≤ t := by
        rw [hdur]
        calc r.frameCount * frameDurationUs ≤ f * frameDurationUs :=
              Nat.mul_le_mul_right _ (by omega)
          _ ≤ t := hlo
      have hf' : f - r.frameCount < sumCounts rs := by
        simp only [sumCounts, List.map_cons, List.sum_cons] at hf
        simp only [sumCounts]
        omega
      rw [offsetAtFrame, if_neg hfr] at hoff
      rw [locate, if_neg (by omega)]
      have heq := ih (f - r.frameCount) (t - r.frameCount * r.frameDurationUs)
        (fAcc + r.frameCount) (bAcc + r.frameCount * r.frameSizeBytes) off
        (fun x hx => hwf x (List.mem_cons_of_mem r hx)) hf'
        (by rw [hdur]; simp only [frameDurationUs] at hlo ⊢; rw [hdur] at hge; simp only [frameDurationUs] at hge; omega)
        (by rw [hdur]; simp only [frameDurationUs] at hhi ⊢; rw [hdur] at hge; simp only [frameDurationUs] at hge; omega)
        hoff
      rw [heq]
      congr 2
      omega

theorem walkFrames_frame {tbl : Nat → Option Nat} {src : List Nat} {off sz off2 : Nat}
    (h : nextFrame tbl src off = .frame sz off2) (fuel : Nat) :
    walkFrames tbl src off (fuel + 1) = sz :: walkFrames tbl src off2 fuel := by
  rw [walkFrames, h]

theorem walkFrames_corrupt {tbl : Nat → Option Nat} {src : List Nat} {off o : Nat}
    (h : nextFrame tbl src off = .corruptFrame o) (fuel : Nat) :
    walkFrames tbl src off (fuel + 1) = [] := by
  rw [walkFrames, h]

theorem open_ok_wf {tbl : SizeTable} {src : List Nat} {e : Extractor}
    (h : openExtractor tbl src = .ok e) :
    e.index ≠ [] ∧
    (∀ x ∈ e.index, x.frameDurationUs = frameDurationUs ∧ 1 ≤ x.frameCount) ∧
    e.totalFrames = sumCounts e.index ∧
    e.totalDurationUs = frameDurationUs * e.totalFrames ∧
    1 ≤ e.totalFrames := by
  obtain ⟨v, s, rest, hm, hw, he⟩ := open_ok h
  subst he
  refine ⟨buildIndex_ne_nil s rest, buildIndex_wf s rest, rfl,
    sumDuration_eq _ (buildIndex_wf s rest), ?_⟩
  obtain ⟨hd, tl, heq, -⟩ := buildRuns_chain rest ⟨1, s, frameDurationUs⟩ rfl
  have hidx : buildIndex (s :: rest) = hd :: tl := by rw [buildIndex_cons, heq]
  show 1 ≤ sumCounts (buildIndex (s :: rest))
  rw [hidx]
  exact sumCounts_pos hd tl (hidx ▸ buildIndex_wf s rest)

theorem offsetAtFrame_zero (r : RunEntry) (rs : List RunEntry) (bAcc : Nat)
    (hc : 1 ≤ r.frameCount) : offsetAtFrame (r :: rs) 0 bAcc = some bAcc := by
  rw [offsetAtFrame, if_pos (by omega)]
  simp

theorem frameAtTime_exact {tbl : SizeTable} {src : List Nat} {e : Extractor}
    (h : openExtractor tbl src = .ok e)
    {f : Nat} (hf : f < e.totalFrames) {t : Int}
    (ht : t.toNat = f * frameDurationUs) :
    ∃ off, offsetAtFrame e.index f (headerLength e.variant) = some off ∧
      frameAtTime e t = some ⟨f, off, frameDurationUs⟩ := by
  obtain ⟨hne, hwf, hTF, hTD, hTF1⟩ := open_ok_wf h
  have hfc : f < sumCounts e.index := hTF ▸ hf
  obtain ⟨-, ⟨off, hoff⟩, -⟩ := lookups_some e.index hwf f (headerLength e.variant) 0 hfc
  refine ⟨off, hoff, ?_⟩
  unfold frameAtTime
  have hmin : min t.toNat (e.totalDurationUs - 1) = f * frameDurationUs := by
    rw [ht, hTD]
    simp only [frameDurationUs]
    omega
  rw [hmin]
  have hloc := locate_eq e.index f (f * frameDurationUs) 0 (headerLength e.variant) off
    hwf hfc (Nat.le_refl _) (by simp only [frameDurationUs]; omega) hoff
  simpa using hloc

theorem frameAtTime_end {tbl : SizeTable} {src : List Nat} {e : Extractor}
    (h : openExtractor tbl src = .ok e)
    {t : Int} (ht : t.toNat = e.totalDurationUs - 1 ∨ e.totalDurationUs ≤ t.toNat) :
    ∃ p, frameAtTime e t = some p ∧ p.frameNumber = e.totalFrames - 1 ∧
      p.frameDurationUs = frameDurationUs := by
  obtain ⟨hne, hwf, hTF, hTD, hTF1⟩ := open_ok_wf h
  have hfc : e.totalFrames - 1 < sumCounts e.index := by rw [← hTF]; omega
  obtain ⟨-, ⟨off, hoff⟩, -⟩ :=
    lookups_some e.index hwf (e.totalFrames - 1) (headerLength e.variant) 0 hfc
  refine ⟨⟨e.totalFrames - 1, off, frameDurationUs⟩, ?_, rfl, rfl⟩
  unfold frameAtTime
  have hmin : min t.toNat (e.totalDurationUs - 1) = e.totalDurationUs - 1 := by
    rcases ht with ht | ht <;> omega
  rw [hmin]
  have hloc := locate_eq e.index (e.totalFrames - 1) (e.totalDurationUs - 1) 0
    (headerLength e.variant) off hwf hfc
    (by rw [hTD]; simp only [frameDurationUs]; omega)
    (by rw [hTD]; simp only [frameDurationUs]; omega) hoff
  simpa using hloc

theorem failed_absorbing (src : List Nat) (ops : List Op) :
    (runOps src .failed ops).1 = .failed ∧
    ∀ r ∈ (runOps src .failed ops).2, r = .notInitialized := by
  induction ops with
  | nil => exact ⟨rfl, by simp [runOps]⟩
  | cons op ops ih =>
    refine ⟨?_, ?_⟩
    · show (runOps src ((stepOp src .failed op).1) ops).1 = .failed
      exact ih.1
    · intro r hr
      simp only [runOps, stepOp, List.mem_cons] at hr
      rcases hr with hr | hr
      · exact hr
      · exact ih.2 r hr

theorem offsetAtFrame_zero_open {tbl : SizeTable} {src : List Nat} {e : Extractor}
    (h : openExtractor tbl src = .ok e) :
    offsetAtFrame e.index 0 (headerLength e.variant) = some (headerLength e.variant) := by
  obtain ⟨hne, hwf, -, -, -⟩ := open_ok_wf h
  cases hidx : e.index with
  | nil => exact absurd hidx hne
  | cons hd tl =>
    refine offsetAtFrame_zero hd tl _ ?_
    exact (hwf hd (by rw [hidx]; exact List.mem_cons_self hd tl)).2

theorem frameAtTime_toNat_zero {tbl : SizeTable} {src : List Nat} {e : Extractor}
    (h : openExtractor tbl src = .ok e) {t : Int} (h0 : t.toNat = 0) :
    frameAtTime e t = some ⟨0, headerLength e.variant, frameDurationUs⟩ := by
  obtain ⟨-, -, -, -, hTF1⟩ := open_ok_wf h
  obtain ⟨off, hoff, heq⟩ := @frameAtTime_exact tbl src e h 0 (by omega) t (by simp [h0])
  have hdr := offsetAtFrame_zero_open h
  rw [hoff] at hdr
  simp only [Option.some.injEq] at hdr
  rw [heq, hdr]

/-- C1: for every input whose frames form k maximal contiguous blocks of
distinct frame sizes, the index built at open time has exactly k RunEntries;
every entry has frameCount ≥ 1 and no two consecutive entries share the same
(frameSizeBytes, frameDurationUs) pair. -/
theorem frame_index_coalescing (tbl : SizeTable) (src : List Nat) (e : Extractor)
    (h : openExtractor tbl src = .ok e) :
    e.index.length = blockCount (frameSizesOf tbl src) ∧
    (∀ r ∈ e.index, 1 ≤ r.frameCount) ∧
    List.Chain' distinctAdj e.index := by
  obtain ⟨v, s, rest, hm, hw, he⟩ := open_ok h
  have hfs : frameSizesOf tbl src = s :: rest := by
    simp [frameSizesOf, hm, hw]
  subst he
  rw [hfs]
  refine ⟨?_, ?_, ?_⟩
  · show (buildIndex (s :: rest)).length = blockCount (s :: rest)
    rw [buildIndex_cons]
    exact buildRuns_length rest ⟨1, s, frameDurationUs⟩ rfl
  · intro r hr
    exact (buildIndex_wf s rest r hr).2
  · show List.Chain' distinctAdj (buildIndex (s :: rest))
    rw [buildIndex_cons]
    obtain ⟨hd, tl, heq, -, -, hch⟩ := buildRuns_chain rest ⟨1, s, frameDurationUs⟩ rfl
    rw [heq]
    exact hch

/-- Witness for C1 at a concrete two-block input. -/
theorem frame_index_coalescing_witness :
    openExtractor sampleTable srcTwoBlocks = .ok extTwoBlocks ∧
    (extTwoBlocks.index.length = blockCount (frameSizesOf sampleTable srcTwoBlocks) ∧
     (∀ r ∈ extTwoBlocks.index, 1 ≤ r.frameCount) ∧
     List.Chain' distinctAdj extTwoBlocks.index) :=
  ⟨rfl, frame_index_coalescing sampleTable srcTwoBlocks extTwoBlocks rfl⟩

/-- C2: for every valid constant-bitrate input of N frames (all the same
size), the index built at open time is exactly one RunEntry whose
frameCount is N, and totalFrames is N. -/
theorem constant_bitrate_single_run (tbl : SizeTable) (src : List Nat)
    (e : Extractor) (N s : Nat) (h : openExtractor tbl src = .ok e)
    (hsizes : frameSizesOf tbl src = List.replicate N s) :
    e.index = [⟨N, s, frameDurationUs⟩] ∧ e.totalFrames = N := by
  obtain ⟨v, s0, rest, hm, hw, he⟩ := open_ok h
  have hfs : frameSizesOf tbl src = s0 :: rest := by
    simp [frameSizesOf, hm, hw]
  rw [hfs] at hsizes
  cases N with
  | zero => simp at hsizes
  | succ m =>
    rw [List.replicate_succ] at hsizes
    injection hsizes with hs0 hrest
    subst hs0
    subst hrest
    subst he
    have hbi : buildIndex (s0 :: List.replicate m s0) = [⟨1 + m, s0, frameDurationUs⟩] := by
      rw [buildIndex_cons, buildRuns_replicate]
    constructor
    · show buildIndex (s0 :: List.replicate m s0) = _
      rw [hbi, Nat.add_comm 1 m]
    · show sumCounts (buildIndex (s0 :: List.replicate m s0)) = m + 1
      rw [hbi]
      simp [sumCounts]
      omega

/-- Witness for C2 at a concrete three-frame constant-bitrate input. -/
theorem constant_bitrate_single_run_witness :
    openExtractor sampleTable srcConstBitrate = .ok extConstBitrate ∧
    frameSizesOf sampleTable srcConstBitrate = List.replicate 3 12 ∧
    (extConstBitrate.index = [⟨3, 12, frameDurationUs⟩] ∧
     extConstBitrate.totalFrames = 3) :=
  ⟨rfl, rfl,
   constant_bitrate_single_run sampleTable srcConstBitrate extConstBitrate 3 12 rfl rfl⟩

/-- C8: for every byte source whose initial bytes are neither magic literal,
sniffing reports no match and opening fails with badMagic. -/
theorem sniff_and_open_bad_magic (tbl : SizeTable) (src : List Nat)
    (h6 : src.take 6 ≠ amrNBMagic) (h9 : src.take 9 ≠ amrWBMagic) :
    SniffAMR src = none ∧ openExtractor tbl src = .error .badMagic := by
  have hm : chkMagic src = none := by
    rw [chkMagic, if_neg h6, if_neg h9]
  constructor
  · rw [SniffAMR, List.take_take]
    simp only [Nat.min_def]
    norm_num
    rw [if_neg h6, if_neg h9]
  · simp only [openExtractor, hm]

/-- Witness for C8 at a concrete non-matching input. -/
theorem sniff_and_open_bad_magic_witness :
    ([9, 9, 9] : List Nat).take 6 ≠ amrNBMagic ∧
    ([9, 9, 9] : List Nat).take 9 ≠ amrWBMagic ∧
    (SniffAMR [9, 9, 9] = none ∧
     openExtractor sampleTable [9, 9, 9] = .error .badMagic) :=
  ⟨by decide, by decide,
   sniff_and_open_bad_magic sampleTable [9, 9, 9] (by decide) (by decide)⟩

/-- C10: the run-table entry of `AMRExtractor.h` is only constructible from a
32-bit unsigned frame count, so the 64-bit `mNumFrames` field of every entry
ever constructed is below 2^32 and equals the 32-bit argument exactly. -/
theorem table_entry_count_widening (nf fs fr : Fin UINT32_SIZE) :
    (AMRFrameTableEntry.ctor nf fs fr).mNumFrames < 2 ^ 32 ∧
    (AMRFrameTableEntry.ctor nf fs fr).mNumFrames = nf.val :=
  ⟨nf.isLt, rfl⟩

/-- C3: trailing corruption truncates but does not fail the open — for an
input of the narrowband magic, one valid frame whose type code maps to 12
bytes, and then 3 garbage bytes (the first with an invalid type code), open
succeeds, the index is exactly one RunEntry with frameCount 1, and
trackMetadata().durationUs is 20000. -/
theorem trailing_corruption_truncates (tbl : SizeTable) (b g : Nat)
    (payload gRest : List Nat)
    (hb : tbl .narrowband (frameTypeCode b) = some 12)
    (hg : tbl .narrowband (frameTypeCode g) = none)
    (hpl : payload.length = 11) (hgl : gRest.length = 2) :
    ∃ e, openExtractor tbl (amrNBMagic ++ b :: (payload ++ g :: gRest)) = .ok e ∧
      e.index = [⟨1, 12, frameDurationUs⟩] ∧
      (trackMetadata e).durationUs = 20000 := by
  set src := amrNBMagic ++ b :: (payload ++ g :: gRest) with hsrc
  have hL : src.length = 21 := by
    simp [hsrc, amrNBMagic, hpl, hgl]
  have hsrc2 : src = (amrNBMagic ++ b :: payload) ++ g :: gRest := by
    simp [hsrc]
  have htake : src.take 6 = amrNBMagic := by
    rw [hsrc]
    exact List.take_left' rfl
  have hmg : chkMagic src = some .narrowband := by
    rw [chkMagic, if_pos htake]
  have hget6 : src.getD 6 0 = b := by
    rw [hsrc, List.getD_eq_getElem?_getD,
      List.getElem?_append_right (by simp [amrNBMagic])]
    simp [amrNBMagic]
  have hget18 : src.getD 18 0 = g := by
    rw [hsrc2, List.getD_eq_getElem?_getD,
      List.getElem?_append_right (by simp [amrNBMagic, hpl])]
    simp [amrNBMagic, hpl]
  have h6 : nextFrame (tbl .narrowband) src 6 = .frame 12 18 := by
    rw [nextFrame, if_pos (show 6 < src.length by omega), hget6]
    simp only [hb]
    rw [if_pos (show 6 + 12 ≤ src.length by omega)]
  have h18 : nextFrame (tbl .narrowband) src 18 = .corruptFrame 18 := by
    rw [nextFrame, if_pos (show 18 < src.length by omega), hget18]
    simp only [hg]
  have hwalk : walkFrames (tbl .narrowband) src 6 21 = [12] := by
    rw [show (21 : Nat) = 20 + 1 by norm_num, walkFrames_frame h6 20,
      show (20 : Nat) = 19 + 1 by norm_num, walkFrames_corrupt h18 19]
  refine ⟨⟨.narrowband, [⟨1, 12, frameDurationUs⟩], 1, 20000⟩, ?_, rfl, rfl⟩
  show openExtractor tbl src = _
  simp only [openExtractor, hmg, headerLength]
  rw [hL, hwalk]
  rfl

/-- Witness for C3 at a concrete input with concrete garbage bytes. -/
theorem trailing_corruption_truncates_witness :
    sampleTable .narrowband (frameTypeCode 0) = some 12 ∧
    sampleTable .narrowband (frameTypeCode 16) = none ∧
    (List.replicate 11 0).length = 11 ∧
    ([0, 0] : List Nat).length = 2 ∧
    (∃ e, openExtractor sampleTable
        (amrNBMagic ++ 0 :: (List.replicate 11 0 ++ 16 :: [0, 0])) = .ok e ∧
      e.index = [⟨1, 12, frameDurationUs⟩] ∧
      (trackMetadata e).durationUs = 20000) :=
  ⟨rfl, rfl, rfl, rfl,
   trailing_corruption_truncates sampleTable 0 16 (List.replicate 11 0) [0, 0]
     rfl rfl rfl rfl⟩

/-- C4: seek-then-read round trip — for every valid frame number f, seeking
to frame f's timestamp positions the cursor at frame f with byte offset
offsetAtFrame(f), and readNextFrame then reads the frame at that offset. -/
theorem seek_then_read_round_trip (tbl : SizeTable) (src : List Nat)
    (e : Extractor) (h : openExtractor tbl src = .ok e)
    (f : Nat) (hf : f < e.totalFrames) :
    ∃ c off sz,
      seekTo e ((f * frameDurationUs : Nat) : Int) = some c ∧
      c.currentFrameNumber = f ∧
      offsetAtFrame e.index f (headerLength e.variant) = some off ∧
      c.currentByteOffset = off ∧
      runSizeAtFrame e.index f = some sz ∧
      readNextFrame src e c =
        (.frame ((src.drop off).take sz) (f * frameDurationUs),
         ⟨f + 1, off + sz⟩) := by
  obtain ⟨hne, hwf, hTF, hTD, hTF1⟩ := open_ok_wf h
  have hfc : f < sumCounts e.index := hTF ▸ hf
  obtain ⟨⟨sz, hsz⟩, -, hts⟩ :=
    lookups_some e.index hwf f (headerLength e.variant) 0 hfc
  obtain ⟨off, hoff, heq⟩ :=
    @frameAtTime_exact tbl src e h f hf ((f * frameDurationUs : Nat) : Int)
      (by simp only [frameDurationUs]; omega)
  refine ⟨⟨f, off⟩, off, sz, ?_, rfl, hoff, rfl, hsz, ?_⟩
  · rw [seekTo, heq]
    rfl
  · show readNextFrame src e ⟨f, off⟩ = _
    simp only [readNextFrame, hsz, hts]
    simp

/-- Witness for C4 at frame number 1 of a concrete two-block input. -/
theorem seek_then_read_round_trip_witness :
    openExtractor sampleTable srcTwoBlocks = .ok extTwoBlocks ∧
    1 < extTwoBlocks.totalFrames ∧
    (∃ c off sz,
      seekTo extTwoBlocks ((1 * frameDurationUs : Nat) : Int) = some c ∧
      c.currentFrameNumber = 1 ∧
      offsetAtFrame extTwoBlocks.index 1 (headerLength extTwoBlocks.variant) = some off ∧
      c.currentByteOffset = off ∧
      runSizeAtFrame extTwoBlocks.index 1 = some sz ∧
      readNextFrame srcTwoBlocks extTwoBlocks c =
        (.frame ((srcTwoBlocks.drop off).take sz) (1 * frameDurationUs),
         ⟨1 + 1, off + sz⟩)) :=
  ⟨rfl, by decide,
   seek_then_read_round_trip sampleTable srcTwoBlocks extTwoBlocks rfl 1 (by decide)⟩

/-- C5: for every successfully opened stream, frameAtTime(0) is frame number
0 at byte offset headerLength with the fixed 20 ms frame duration. -/
theorem frameAtTime_zero_is_first_frame (tbl : SizeTable) (src : List Nat)
    (e : Extractor) (h : openExtractor tbl src = .ok e) :
    frameAtTime e 0 = some ⟨0, headerLength e.variant, frameDurationUs⟩ :=
  frameAtTime_toNat_zero h rfl

/-- Witness for C5 at a concrete two-block input. -/
theorem frameAtTime_zero_is_first_frame_witness :
    openExtractor sampleTable srcTwoBlocks = .ok extTwoBlocks ∧
    frameAtTime extTwoBlocks 0 =
      some ⟨0, headerLength extTwoBlocks.variant, frameDurationUs⟩ :=
  ⟨rfl, frameAtTime_zero_is_first_frame sampleTable srcTwoBlocks extTwoBlocks rfl⟩

/-- C6: for every successfully opened stream with positive total duration,
frameAtTime(totalDurationUs - 1) resolves to the last indexed frame. -/
theorem frameAtTime_end_is_last_frame (tbl : SizeTable) (src : List Nat)
    (e : Extractor) (h : openExtractor tbl src = .ok e)
    (hpos : 0 < e.totalDurationUs) :
    ∃ p, frameAtTime e ((e.totalDurationUs : Int) - 1) = some p ∧
      p.frameNumber = e.totalFrames - 1 := by
  obtain ⟨p, hp, hfn, -⟩ :=
    @frameAtTime_end tbl src e h ((e.totalDurationUs : Int) - 1) (Or.inl (by omega))
  exact ⟨p, hp, hfn⟩

/-- Witness for C6 at a concrete two-block input. -/
theorem frameAtTime_end_is_last_frame_witness :
    openExtractor sampleTable srcTwoBlocks = .ok extTwoBlocks ∧
    0 < extTwoBlocks.totalDurationUs ∧
    (∃ p, frameAtTime extTwoBlocks ((extTwoBlocks.totalDurationUs : Int) - 1) = some p ∧
      p.frameNumber = extTwoBlocks.totalFrames - 1) :=
  ⟨rfl, by decide,
   frameAtTime_end_is_last_frame sampleTable srcTwoBlocks extTwoBlocks rfl (by decide)⟩

/-- C7: seeking to a negative timestamp positions the cursor at frame 0 and
seeking at or beyond totalDurationUs positions it at the last frame; in
neither case is an error returned (seekTo yields a cursor). -/
theorem seek_clamps_never_errors (tbl : SizeTable) (src : List Nat)
    (e : Extractor) (h : openExtractor tbl src = .ok e) :
    (∀ t : Int, t < 0 → seekTo e t = some ⟨0, headerLength e.variant⟩) ∧
    (∀ t : Int, (e.totalDurationUs : Int) ≤ t →
      ∃ c, seekTo e t = some c ∧ c.currentFrameNumber = e.totalFrames - 1) := by
  constructor
  · intro t ht
    have h0 : t.toNat = 0 := by omega
    rw [seekTo, frameAtTime_toNat_zero h h0]
    rfl
  · intro t ht
    obtain ⟨p, hp, hfn, -⟩ :=
      @frameAtTime_end tbl src e h t (Or.inr (by omega))
    refine ⟨⟨p.frameNumber, p.byteOffset⟩, ?_, hfn⟩
    rw [seekTo, hp]
    rfl

/-- Witness for C7 at a concrete two-block input. -/
theorem seek_clamps_never_errors_witness :
    openExtractor sampleTable srcTwoBlocks = .ok extTwoBlocks ∧
    ((∀ t : Int, t < 0 →
        seekTo extTwoBlocks t = some ⟨0, headerLength extTwoBlocks.variant⟩) ∧
     (∀ t : Int, (extTwoBlocks.totalDurationUs : Int) ≤ t →
        ∃ c, seekTo extTwoBlocks t = some c ∧
          c.currentFrameNumber = extTwoBlocks.totalFrames - 1)) :=
  ⟨rfl, seek_clamps_never_errors sampleTable srcTwoBlocks extTwoBlocks rfl⟩

/-- C9: a matching magic followed by zero valid frames makes open fail with
emptyStream, and the instance is then permanently failed — every operation
of every subsequent call sequence reports notInitialized and the state never
leaves failed. -/
theorem empty_stream_permanent_failure (tbl : SizeTable) (src : List Nat)
    (v : Variant) (hm : chkMagic src = some v)
    (hz : frameSizesOf tbl src = []) :
    openExtractor tbl src = .error .emptyStream ∧
    openState tbl src = .failed ∧
    ∀ ops : List Op, (runOps src (openState tbl src) ops).1 = .failed ∧
      ∀ r ∈ (runOps src (openState tbl src) ops).2, r = .notInitialized := by
  have hw : walkFrames (tbl v) src (headerLength v) src.length = [] := by
    simpa [frameSizesOf, hm] using hz
  have hopen : openExtractor tbl src = .error .emptyStream := by
    simp only [openExtractor, hm, hw]
  have hstate : openState tbl src = .failed := by
    simp only [openState, hopen]
  refine ⟨hopen, hstate, ?_⟩
  intro ops
  rw [hstate]
  exact failed_absorbing src ops

/-- Witness for C9 at the bare wideband magic. -/
theorem empty_stream_permanent_failure_witness :
    chkMagic amrWBMagic = some .wideband ∧
    frameSizesOf sampleTable amrWBMagic = [] ∧
    (openExtractor sampleTable amrWBMagic = .error .emptyStream ∧
     openState sampleTable amrWBMagic = .failed ∧
     ∀ ops : List Op,
       (runOps amrWBMagic (openState sampleTable amrWBMagic) ops).1 = .failed ∧
       ∀ r ∈ (runOps amrWBMagic (openState sampleTable amrWBMagic) ops).2,
         r = .notInitialized) :=
  ⟨rfl, rfl,
   empty_stream_permanent_failure sampleTable amrWBMagic .wideband rfl rfl⟩

end AMR
